import Mathlib

/-!
Verification development for `gp_merge_clips.py`, a library that locates
GoPro movie chapters in a directory and merges chapters of one recording.

The Python module is shallowly embedded below.  Filesystem interaction is
made explicit: a directory listing is a list of `Entry` values (name,
mtime, regular-file flag, in `os.listdir` order), mutations are logged as
`Effect` values, `tempfile.mktemp` is a counter-indexed name supply, and
Python exceptions become `Except PyError`.
-/

namespace GP

/-- Python exceptions that the module can raise. -/
inductive PyError where
  | valueError
  | indexError
  | runtimeError (msg : String)
deriving DecidableEq, Repr

/-- One directory entry as seen by `os.listdir` plus `os.stat`:
its name, its `st_mtime`, and whether it is a regular file.
The source never checks the entry type, so `isFile` is read nowhere. -/
structure Entry where
  name : String
  mtime : Nat
  isFile : Bool
deriving DecidableEq, Repr

/-- The per-key record of the mapping built by `_map_chapters`:
`{'clips': [...], 'command': None, 'output': None}`. -/
structure Group where
  clips : List String
  command : Option String
  output : Option String
deriving DecidableEq, Repr

/-- The mapping returned by `_map_chapters` / `merge_clips`, in dict
insertion order. -/
abbrev Mapping := List (String × Group)

/-- Filesystem / process mutations performed by the module.  `_print`
calls are not logged: they mutate nothing. -/
inductive Effect where
  | writeFile (path content : String)
  | popen (cmd : String)
  | removeFile (path : String)
  | makedirs (path : String)
  | move (src dst : String)
deriving DecidableEq, Repr

/-! ### String helpers (Python builtins used by the source) -/

/-- Split a character list at its last dot, returning the part before it
and the part from the dot on; `none` when there is no dot. -/
def splitLastDot : List Char → Option (List Char × List Char)
  | [] => none
  | c :: rest =>
    match splitLastDot rest with
    | some (r, e) => some (c :: r, e)
    | none => if c = '.' then some ([], c :: rest) else none

/-- `os.path.splitext` on a plain file name (no separators): the
extension starts at the last dot, except that a leading run of dots
belongs to the root. -/
def splitext (name : String) : String × String :=
  let cs := name.toList
  let lead := cs.takeWhile (fun c => c = '.')
  let body := cs.drop lead.length
  match splitLastDot body with
  | some (r, e) => (String.mk (lead ++ r), String.mk e)
  | none => (name, "")

/-- Python string slicing `s[n:]`. -/
def strDrop (n : Nat) (s : String) : String :=
  String.mk (s.toList.drop n)

/-- Python `str.lower` (ASCII is all the source needs). -/
def lowerStr (s : String) : String :=
  String.mk (s.toList.map Char.toLower)

/-- Python `int(s)` restricted to the unsigned decimal forms the module
can meet: all-digit strings parse, anything else raises `ValueError`. -/
def strToNat? (s : String) : Option Nat :=
  let cs := s.toList
  if cs.isEmpty then none
  else if cs.all Char.isDigit then
    some (cs.foldl (fun n c => n * 10 + (c.toNat - '0'.toNat)) 0)
  else none

/-- `os.path.join(path, x)` for a relative component. -/
def joinPath (path x : String) : String := path ++ "/" ++ x

/-- `VALID = ('mp4', 'mov', 'avi')`. -/
def VALID : List String := ["mp4", "mov", "avi"]

/-- The extension test of the scan loop in `_map_chapters`:
`os.path.splitext(movie)[-1][1:].lower() in VALID`. -/
def isValidExt (name : String) : Bool :=
  VALID.contains (lowerStr (strDrop 1 (splitext name).2))

/-! ### Python dict and sort helpers -/

/-- Assignment `d[k] = v` on a Nat-keyed dict kept in insertion order:
an existing key keeps its position and gets the new value, a fresh key
is appended. -/
def dictInsert (d : List (Nat × String)) (k : Nat) (v : String) :
    List (Nat × String) :=
  if d.any (fun p => p.1 == k) then
    d.map (fun p => if p.1 == k then (k, v) else p)
  else d ++ [(k, v)]

/-- Dict lookup `d[k]` (the callers below only look up present keys;
an absent key yields `""`). -/
def lookupD (d : List (Nat × String)) (k : Nat) : String :=
  match d.find? (fun p => p.1 == k) with
  | some p => p.2
  | none => ""

/-- Python `list.sort()` on Nats (ascending). -/
def sortNat (l : List Nat) : List Nat :=
  List.insertionSort (fun a b => a ≤ b) l

/-- Strict code-point comparison of character lists, as Python compares
strings. -/
def charListLt : List Char → List Char → Bool
  | [], [] => false
  | [], _ :: _ => true
  | _ :: _, [] => false
  | a :: as, b :: bs =>
    if a.toNat < b.toNat then true
    else if b.toNat < a.toNat then false
    else charListLt as bs

/-- Python `a < b` on strings. -/
def strLt (a b : String) : Bool := charListLt a.toList b.toList

/-- Insert into an ascending list, after any equal element (stable). -/
def insertStr (x : String) : List String → List String
  | [] => [x]
  | y :: ys => if strLt x y then x :: y :: ys else y :: insertStr x ys

/-- Python `list.sort()` on strings (ascending, stable). -/
def sortStrings : List String → List String
  | [] => []
  | x :: xs => insertStr x (sortStrings xs)

/-- The body of `groupby(enumerate(keys), lambda ix: ix[0] - ix[1])`:
consecutive elements stay in one group exactly while each key is one
more than its predecessor (equal index-minus-key difference). -/
def runsAux (prev : Nat) (acc : List Nat) : List Nat → List (List Nat)
  | [] => [acc.reverse]
  | k :: rest =>
    if k = prev + 1 then runsAux k (k :: acc) rest
    else acc.reverse :: runsAux k [k] rest

/-- Split a key list into the maximal runs of consecutive values that
the `groupby`-on-difference idiom produces. -/
def groupConsecRuns : List Nat → List (List Nat)
  | [] => []
  | k :: rest => runsAux k [k] rest

/-- A list of strictly consecutive ascending naturals (each element one
more than its predecessor). -/
def isConsecRun : List Nat → Bool
  | [] => true
  | [_] => true
  | a :: b :: t => (b == a + 1) && isConsecRun (b :: t)

/-- Python slice adjustment of one bound: negative indices count from
the end, then the bound is clamped to `[0, n]`. -/
def pyIdxAdj (n : Nat) (i : Int) : Nat :=
  if i < 0 then (max 0 ((n : Int) + i)).toNat else min i.toNat n

/-- Python list slicing `l[a:b]` (step 1), with negative-index
wraparound and clamping. -/
def pySlice {α : Type} (l : List α) (a b : Int) : List α :=
  (l.take (pyIdxAdj l.length b)).drop (pyIdxAdj l.length a)

/-! ### The module functions -/

/-- `_map_movies`: strip the extension, drop the two-character prefix,
cast the rest to an integer key; `int` raises `ValueError` on a
non-numeric field.  Later files overwrite earlier ones on a duplicate
key, as a Python dict does. -/
def _map_movies (movies : List String) : Except PyError (List (Nat × String)) :=
  movies.foldlM
    (fun d movie =>
      match strToNat? (strDrop 2 (splitext movie).1) with
      | some k => Except.ok (dictInsert d k movie)
      | none => Except.error PyError.valueError)
    []

/-- `_sort_sequential_movies`: sort the keys, split them into maximal
consecutive runs, and return the first run (the source's bare
`sorted(...)` call on the run list discards its result, and the list is
already in ascending first-key order); an empty directory hits the
`IndexError` handler and yields `[]`. -/
def _sort_sequential_movies (movies : List String) :
    Except PyError (List String) :=
  match _map_movies movies with
  | Except.error e => Except.error e
  | Except.ok mapped =>
    let keys := sortNat (mapped.map Prod.fst)
    let runs := groupConsecRuns keys
    let sequentialMovies := runs.map (fun r => r.map (fun k => lookupD mapped k))
    Except.ok (sequentialMovies.headD [])

/-- `os.stat(join(path, movie)).st_mtime`, read off the listing. -/
def statMtime (dir : List Entry) (name : String) : Nat :=
  match dir.find? (fun e => e.name == name) with
  | some e => e.mtime
  | none => 0

/-- The `mtime_mapping` dict of `_sort_by_mtime`: keyed by mtime, so a
later file with the same mtime overwrites an earlier one. -/
def mtimeDict (dir : List Entry) (movies : List String) : List (Nat × String) :=
  movies.foldl (fun d mv => dictInsert d (statMtime dir mv) mv) []

/-- `_sort_by_mtime`: build the mtime-keyed dict, sort the mtimes, and
read the files back in that order. -/
def _sort_by_mtime (dir : List Entry) (movies : List String) : List String :=
  (sortNat ((mtimeDict dir movies).map Prod.fst)).map
    (fun t => lookupD (mtimeDict dir movies) t)

/-- The scan loop of `_map_chapters`: keep every listing name whose
extension is valid.  The entry type is never consulted. -/
def scanMovies (dir : List Entry) : List String :=
  (dir.map Entry.name).filter (fun n => isValidExt n)

/-- The per-run loop at the end of `_map_chapters`: slice
`sorted_by_mtime[first-1 : last+1]` with Python slice semantics, read
`grouped_movies[0]` (an `IndexError` when the slice is empty), and
`setdefault` the group under the base name of that first movie. -/
def buildGroups (path : String) (byTime : List String) :
    List (List Nat) → Mapping → Except PyError Mapping
  | [], acc => Except.ok acc
  | run :: rest, acc =>
    match pySlice byTime ((run.headD 0 : Int) - 1) ((run.getLastD 0 : Int) + 1) with
    | [] => Except.error PyError.indexError
    | g0 :: gtl =>
      buildGroups path byTime rest
        (if (acc.map Prod.fst).contains (splitext g0).1 then acc
         else acc ++ [((splitext g0).1,
                       { clips := (g0 :: gtl).map (fun x => joinPath path x),
                         command := none, output := none })])

/-- `_map_chapters`: scan the directory, take the first sequential run,
return `{}` when it is empty, otherwise cluster the mtime-order indices
of the complement (the mtime order minus the run, which keeps mtime
order, so its sorted index list is independent of the arbitrary Python
set iteration order) and build one group per cluster. -/
def _map_chapters (path : String) (dir : List Entry) : Except PyError Mapping :=
  match _sort_sequential_movies (scanMovies dir) with
  | Except.error e => Except.error e
  | Except.ok seq =>
    if seq.isEmpty then Except.ok []
    else
      buildGroups path (_sort_by_mtime dir (scanMovies dir))
        (groupConsecRuns (sortNat
          (((_sort_by_mtime dir (scanMovies dir)).filter
              (fun m => ¬ seq.contains m)).map
            (fun d => (_sort_by_mtime dir (scanMovies dir)).indexOf d)))) []

/-- `EXE % {'text': t, 'output': o}`. -/
def exeFmt (text output : String) : String :=
  "ffmpeg -f concat -safe 0 -i " ++ text ++ " -c:v copy " ++ output

/-- `tempfile.mktemp(suffix)`, modelled as a deterministic fresh-name
supply indexed by a counter threaded through the run. -/
def mktemp (c : Nat) (suffix : String) : String :=
  "/tmp/tmp" ++ toString c ++ suffix

/-- The concat manifest text: one `file '<clip>'` line per clip. -/
def manifestText (clips : List String) : String :=
  String.intercalate "\n" (clips.map (fun clip => "file '" ++ clip ++ "'"))

/-- The output temp name of `_merge_clips`: drawn after the manifest
name, with the container extension of the first clip. -/
def mergeOutput (c : Nat) (c0 : String) : String :=
  mktemp (c + 1) (splitext c0).2

/-- The command line `_merge_clips` builds. -/
def mergeCommand (c : Nat) (c0 : String) : String :=
  exeFmt (mktemp c "") (mergeOutput c c0)

/-- `_merge_clips`: write the concat manifest (dry run only prints it),
build the command, and outside dry run invoke the transcoder, raising
`RuntimeError` naming the command on a non-zero exit, else remove the
manifest.  `exit` gives each command its exit status.  Each outcome
lists the effects performed up to that point, exceptions included. -/
def _merge_clips (clips : List String) (dryrun : Bool) (exit : String → Int)
    (c : Nat) : Except PyError (String × String) × List Effect × Nat :=
  match clips with
  | [] =>
    (Except.error PyError.indexError,
     if dryrun then [] else [Effect.writeFile (mktemp c "") (manifestText [])],
     c + 1)
  | c0 :: rest =>
    if dryrun then
      (Except.ok (mergeOutput c c0, mergeCommand c c0), [], c + 2)
    else if exit (mergeCommand c c0) ≠ 0 then
      (Except.error
        (PyError.runtimeError ("Failed to process '" ++ mergeCommand c c0 ++ "'")),
       [Effect.writeFile (mktemp c "") (manifestText (c0 :: rest)),
        Effect.popen (mergeCommand c c0)],
       c + 2)
    else
      (Except.ok (mergeOutput c c0, mergeCommand c c0),
       [Effect.writeFile (mktemp c "") (manifestText (c0 :: rest)),
        Effect.popen (mergeCommand c c0),
        Effect.removeFile (mktemp c "")],
       c + 2)

/-- The body of the `for key in mapping` loop of `merge_clips` for one
key: skip a group of fewer than two clips, otherwise sort the clips in
place, merge them, create the key directory unless it exists (`fs` is
the pre-run filesystem; distinct keys make earlier creations invisible
here), move every clip into it, and move the merged output onto the
first clip's place. -/
def processGroup (path key : String) (g : Group) (dryrun : Bool)
    (exit : String → Int) (fs : String → Bool) (c : Nat) :
    Except PyError Group × List Effect × Nat :=
  if g.clips.length < 2 then (Except.ok g, [], c)
  else
    match _merge_clips (sortStrings g.clips) dryrun exit c with
    | (Except.error e, effs, c') => (Except.error e, effs, c')
    | (Except.ok (output, command), effs, c') =>
      (Except.ok { clips := sortStrings g.clips, command := some command,
                   output := some output },
       effs
         ++ (if fs (joinPath path key) || dryrun then []
             else [Effect.makedirs (joinPath path key)])
         ++ (if dryrun then []
             else (sortStrings g.clips).map (fun cl => Effect.move cl (joinPath path key)))
         ++ (if dryrun then []
             else [Effect.move output ((sortStrings g.clips).headD "")]),
       c')

/-- The `for key in mapping` loop of `merge_clips`, over the dict in
insertion order; an exception aborts the loop, keeping the effects
already performed. -/
def mergeLoop (path : String) (dryrun : Bool) (exit : String → Int)
    (fs : String → Bool) : Mapping → Nat → Except PyError Mapping × List Effect × Nat
  | [], c => (Except.ok [], [], c)
  | (k, g) :: rest, c =>
    match processGroup path k g dryrun exit fs c with
    | (Except.error e, effs, c') => (Except.error e, effs, c')
    | (Except.ok g', effs, c') =>
      match mergeLoop path dryrun exit fs rest c' with
      | (Except.error e, effs2, c'') => (Except.error e, effs ++ effs2, c'')
      | (Except.ok m', effs2, c'') => (Except.ok ((k, g') :: m'), effs ++ effs2, c'')

/-- `merge_clips(path, dryrun)`: map the chapters, then run the merge
loop over the mapping. -/
def merge_clips (path : String) (dir : List Entry) (dryrun : Bool)
    (exit : String → Int) (fs : String → Bool) (c : Nat) :
    Except PyError Mapping × List Effect × Nat :=
  match _map_chapters path dir with
  | Except.error e => (Except.error e, [], c)
  | Except.ok m => mergeLoop path dryrun exit fs m c

/-! ### Spec-side definition for the extractor's claimed selection rule -/

/-- Modelled from the spec: "Among all runs, select the one with the
greatest length; if multiple runs tie in length, select the one whose
first element has the smallest sequenceKey."  The runs arrive in
ascending first-key order, so keeping the incumbent on a tie prefers
the smallest first key. -/
def specSelectRun (runs : List (List Nat)) : List Nat :=
  runs.foldl (fun best r => if best.length < r.length then r else best) []

/-- Modelled from the spec: the Sequence Extractor as the spec words it,
identical to `_sort_sequential_movies` except that it selects the
longest run (ties → smallest first key) instead of the first run. -/
def specExtractPrimary (movies : List String) : Except PyError (List String) :=
  match _map_movies movies with
  | Except.error e => Except.error e
  | Except.ok mapped =>
    let runs := groupConsecRuns (sortNat (mapped.map Prod.fst))
    Except.ok ((specSelectRun runs).map (fun k => lookupD mapped k))

/-! ### Concrete directories used by the claims -/

/-- Scenario B of the spec (test frame set 2): chapters `10013,20013,
30013`, standalones `10014,10015`, chapters `10016..40016`, standalones
`10017,10018`, with mtimes increasing in recording order. -/
def dirB : List Entry :=
  [⟨"GH010013.MP4", 0, true⟩, ⟨"GH020013.MP4", 1, true⟩, ⟨"GH030013.MP4", 2, true⟩,
   ⟨"GH010014.MP4", 3, true⟩, ⟨"GH010015.MP4", 4, true⟩,
   ⟨"GH010016.MP4", 5, true⟩, ⟨"GH020016.MP4", 6, true⟩, ⟨"GH030016.MP4", 7, true⟩,
   ⟨"GH040016.MP4", 8, true⟩, ⟨"GH010017.MP4", 9, true⟩, ⟨"GH010018.MP4", 10, true⟩]

/-- Two files whose keys `10013` collide (same recording number, two
container extensions), the colliding one earliest by mtime. -/
def dirDup : List Entry :=
  [⟨"GH010013.MP4", 0, true⟩, ⟨"GH010013.MOV", 1, true⟩]

/-- A secondary chapter that is earliest by mtime: its complement run
starts at index 0 of the mtime order and stops before the end. -/
def dirIdx : List Entry :=
  [⟨"GH020013.MP4", 0, true⟩, ⟨"GH010013.MP4", 1, true⟩, ⟨"GH010014.MP4", 2, true⟩]

/-! ### Claim theorems -/

/-- C2: on Scenario B, grouping returns exactly two groups, `GH010013`
with the three clips `GH010013, GH020013, GH030013` and `GH010016` with
the four clips `GH010016, GH020016, GH030016, GH040016`, and no other
file appears in any group. -/
theorem C2_scenarioB :
    _map_chapters "/card" dirB =
      Except.ok
        [("GH010013",
          { clips := ["/card/GH010013.MP4", "/card/GH020013.MP4", "/card/GH030013.MP4"],
            command := none, output := none }),
         ("GH010016",
          { clips := ["/card/GH010016.MP4", "/card/GH020016.MP4",
                      "/card/GH030016.MP4", "/card/GH040016.MP4"],
            command := none, output := none })] := by
  rfl

/-- C1 counterexample: with keys `5, 10, 11, 12` the only maximal run of
length ≥ 2 is `10,11,12` (which the spec rule selects), yet the code
returns the run `[5]` that contains the smallest key. -/
theorem C1_counterexample :
    _sort_sequential_movies
        ["GH000005.MP4", "GH000010.MP4", "GH000011.MP4", "GH000012.MP4"] =
      Except.ok ["GH000005.MP4"] ∧
    specExtractPrimary
        ["GH000005.MP4", "GH000010.MP4", "GH000011.MP4", "GH000012.MP4"] =
      Except.ok ["GH000010.MP4", "GH000011.MP4", "GH000012.MP4"] ∧
    (["GH000005.MP4"] : List String) ≠
      ["GH000010.MP4", "GH000011.MP4", "GH000012.MP4"] := by
  exact ⟨rfl, rfl, by decide⟩

/-- C3 counterexample: a regular file `GHxx.mp4` has a valid extension
but a base name that does not parse to an integer key; the scan does not
skip it silently — `_map_chapters` raises `ValueError`.  Likewise a
non-regular entry is not skipped: a directory named `GH020013.MP4` is
swept into a group. -/
theorem C3_counterexample :
    _map_chapters "/p" [⟨"GHxx.mp4", 0, true⟩] = Except.error PyError.valueError ∧
    _map_chapters "/p" [⟨"GH010013.MP4", 0, true⟩, ⟨"GH020013.MP4", 1, false⟩] =
      Except.ok
        [("GH010013",
          { clips := ["/p/GH010013.MP4", "/p/GH020013.MP4"],
            command := none, output := none })] := by
  exact ⟨rfl, rfl⟩

/-- C4 counterexample: two scanned files sharing one mtime do not both
survive `_sort_by_mtime`; the earlier-scanned one vanishes instead of
the tie being broken. -/
theorem C4_counterexample :
    scanMovies [⟨"GH010010.MP4", 5, true⟩, ⟨"GH010011.MP4", 5, true⟩] =
      ["GH010010.MP4", "GH010011.MP4"] ∧
    _sort_by_mtime [⟨"GH010010.MP4", 5, true⟩, ⟨"GH010011.MP4", 5, true⟩]
        ["GH010010.MP4", "GH010011.MP4"] = ["GH010011.MP4"] := by
  exact ⟨rfl, rfl⟩

/-- C5 counterexample: with keys `5, 10, 12` the selected run is the
single movie `GH000005.MP4` (length 1 ≤ 1), yet the Grouper does not
return an empty mapping — it clusters the other files and reports one
three-clip group. -/
theorem C5_counterexample :
    _sort_sequential_movies
        (scanMovies [⟨"GH000005.MP4", 0, true⟩, ⟨"GH000010.MP4", 1, true⟩,
                     ⟨"GH000012.MP4", 2, true⟩]) =
      Except.ok ["GH000005.MP4"] ∧
    _map_chapters "/p"
        [⟨"GH000005.MP4", 0, true⟩, ⟨"GH000010.MP4", 1, true⟩,
         ⟨"GH000012.MP4", 2, true⟩] =
      Except.ok
        [("GH000005",
          { clips := ["/p/GH000005.MP4", "/p/GH000010.MP4", "/p/GH000012.MP4"],
            command := none, output := none })] := by
  exact ⟨rfl, rfl⟩

/-- C9: a directory whose files collide on a sequence key is not always
handled gracefully — on `dirDup` (keys `10013` twice) the shadowed file
is earliest by mtime, its complement run starts at index 0, and
`_map_chapters` raises an unhandled `IndexError` instead of returning a
mapping. -/
theorem C9_duplicate_keys_raise :
    _map_chapters "/p" dirDup = Except.error PyError.indexError := by
  rfl

/-- C10: on a valid input whose earliest file by mtime is a secondary
chapter (so the first complement run starts at index 0 and stops before
the end of the mtime order), the slice start wraps to -1, the slice is
empty, and `_map_chapters` raises an unhandled `IndexError`. -/
theorem C10_indexerror :
    (_sort_by_mtime dirIdx (scanMovies dirIdx)).head? = some "GH020013.MP4" ∧
    _sort_sequential_movies (scanMovies dirIdx) =
      Except.ok ["GH010013.MP4", "GH010014.MP4"] ∧
    _map_chapters "/p" dirIdx = Except.error PyError.indexError := by
  exact ⟨rfl, rfl, rfl⟩

/-- C5 amended: the Grouper returns the empty mapping, without error,
whenever the Sequence Extractor returns an empty list (no valid movie
files at all).  A selected run of length 1 with other files present
does not short-circuit (see the counterexample); and an empty mapping
can also arise with a nonempty run, e.g. when the complement is empty,
so this is an implication, not an equivalence. -/
theorem C5_amended (path : String) (dir : List Entry)
    (h : _sort_sequential_movies (scanMovies dir) = Except.ok []) :
    _map_chapters path dir = Except.ok [] := by
  unfold _map_chapters
  rw [h]
  rfl

/-- C5 amended, witness: the empty directory yields the empty mapping. -/
theorem C5_amended_witness : _map_chapters "/w" [] = Except.ok [] :=
  C5_amended "/w" [] rfl

/-- C6: the merge/move pipeline runs for a group exactly when it has at
least two clips: a smaller group is returned untouched with no effects
(and in particular keeps `command`/`output` at `none`), while a group of
two or more that completes has both fields set. -/
theorem C6_threshold (path key : String) (g : Group) (dr : Bool)
    (exit : String → Int) (fs : String → Bool) (c : Nat) :
    (g.clips.length < 2 →
      processGroup path key g dr exit fs c = (Except.ok g, [], c)) ∧
    (2 ≤ g.clips.length → ∀ g' effs c',
      processGroup path key g dr exit fs c = (Except.ok g', effs, c') →
      g'.command.isSome = true ∧ g'.output.isSome = true) := by
  constructor
  · intro h
    unfold processGroup
    rw [if_pos h]
  · intro h g' effs c' hp
    unfold processGroup at hp
    rw [if_neg (Nat.not_lt.mpr h)] at hp
    split at hp
    · simp at hp
    · simp only [Prod.mk.injEq] at hp
      obtain ⟨h1, -, -⟩ := hp
      cases h1
      exact ⟨rfl, rfl⟩

/-- C6 witness: a one-clip group is skipped untouched. -/
theorem C6_threshold_witness :
    processGroup "/p" "k" ⟨["/p/x.mp4"], none, none⟩ true (fun _ => 0)
      (fun _ => false) 0 = (Except.ok ⟨["/p/x.mp4"], none, none⟩, [], 0) :=
  (C6_threshold "/p" "k" ⟨["/p/x.mp4"], none, none⟩ true (fun _ => 0)
    (fun _ => false) 0).1 (by decide)

/-- A live `_merge_clips` call that succeeds returns the same output and
command as the dry-run call, which performs no effects. -/
theorem merge_inner_dry (clips : List String) (exit : String → Int) (c : Nat)
    (r : String × String) (effs : List Effect) (c' : Nat)
    (h : _merge_clips clips false exit c = (Except.ok r, effs, c')) :
    _merge_clips clips true exit c = (Except.ok r, [], c') := by
  unfold _merge_clips at h ⊢
  cases clips with
  | nil => simp at h
  | cons c0 rest =>
    simp only [Bool.false_eq_true, if_false, if_true] at h ⊢
    split at h
    · simp at h
    · simp only [Prod.mk.injEq] at h
      obtain ⟨h1, -, h3⟩ := h
      injection h1 with h1'
      rw [h1', h3]

/-- A live `processGroup` call that succeeds returns the same group as
the dry-run call, which performs no effects. -/
theorem processGroup_dry (path key : String) (g : Group) (exit : String → Int)
    (fs : String → Bool) (c : Nat) (g' : Group) (effs : List Effect) (c' : Nat)
    (h : processGroup path key g false exit fs c = (Except.ok g', effs, c')) :
    processGroup path key g true exit fs c = (Except.ok g', [], c') := by
  unfold processGroup at h ⊢
  split at h
  · rename_i hlen
    rw [if_pos hlen]
    simp only [Prod.mk.injEq] at h
    obtain ⟨h1, -, h3⟩ := h
    injection h1 with h1'
    rw [h1', h3]
  · rename_i hlen
    rw [if_neg hlen]
    split at h
    · simp at h
    · rename_i output command effs0 c0 heq
      simp only [Prod.mk.injEq] at h
      obtain ⟨h1, -, h3⟩ := h
      injection h1 with h1'
      simp [merge_inner_dry _ _ _ _ _ _ heq, h1', h3]

/-- A live `mergeLoop` run that succeeds produces the same mapping as the
dry run, which performs no effects. -/
theorem mergeLoop_dry (path : String) (exit : String → Int) (fs : String → Bool) :
    ∀ (m : Mapping) (c : Nat) (mL : Mapping) (eL : List Effect) (cL : Nat),
      mergeLoop path false exit fs m c = (Except.ok mL, eL, cL) →
      mergeLoop path true exit fs m c = (Except.ok mL, [], cL)
  | [], c, mL, eL, cL, h => by
    unfold mergeLoop at h ⊢
    simp only [Prod.mk.injEq] at h
    obtain ⟨h1, -, h3⟩ := h
    injection h1 with h1'
    rw [h1', h3]
  | (k, g) :: rest, c, mL, eL, cL, h => by
    unfold mergeLoop at h ⊢
    split at h
    · simp at h
    · rename_i g' effs c0 heq
      split at h
      · simp at h
      · rename_i m' effs2 c1 heq2
        simp only [Prod.mk.injEq] at h
        obtain ⟨h1, -, h3⟩ := h
        injection h1 with h1'
        simp [processGroup_dry _ _ _ _ _ _ _ _ _ heq,
              mergeLoop_dry path exit fs rest c0 m' effs2 c1 heq2, h1', h3]

/-- C7: on identical directory contents, a live `merge_clips` run that
completes and the dry run produce the same mapping (same keys, same clip
membership and ordering, and even the same planned commands and
outputs), and the dry run performs no filesystem mutation at all (no
manifest write, no transcoder invocation, no directory creation, no
move). -/
theorem C7_dryrun_equiv (path : String) (dir : List Entry) (exit : String → Int)
    (fs : String → Bool) (c : Nat) (m : Mapping) (effs : List Effect) (c' : Nat)
    (h : merge_clips path dir false exit fs c = (Except.ok m, effs, c')) :
    merge_clips path dir true exit fs c = (Except.ok m, [], c') := by
  unfold merge_clips at h ⊢
  split at h
  · simp at h
  · exact mergeLoop_dry path exit fs _ c m effs c' h

/-- C7 witness: a two-chapter directory, live run succeeding with exit
code 0 everywhere; the dry run reports the identical mapping and does
nothing. -/
theorem C7_dryrun_equiv_witness :
    merge_clips "/c" [⟨"GH010013.MP4", 0, true⟩, ⟨"GH020013.MP4", 1, true⟩]
      true (fun _ => 0) (fun _ => false) 0 =
    (Except.ok
      [("GH010013",
        { clips := ["/c/GH010013.MP4", "/c/GH020013.MP4"],
          command := some "ffmpeg -f concat -safe 0 -i /tmp/tmp0 -c:v copy /tmp/tmp1.MP4",
          output := some "/tmp/tmp1.MP4" })], [], 2) :=
  C7_dryrun_equiv "/c" [⟨"GH010013.MP4", 0, true⟩, ⟨"GH020013.MP4", 1, true⟩]
    (fun _ => 0) (fun _ => false) 0 _ _ _ rfl

/-- A live `_merge_clips` call that raises `RuntimeError` does so over a
command with non-zero exit status, names exactly that command in the
message, and has only written the manifest and invoked the process. -/
theorem merge_inner_runtime (clips : List String) (exit : String → Int) (c : Nat)
    (msg : String) (effs : List Effect) (c' : Nat)
    (h : _merge_clips clips false exit c =
      (Except.error (PyError.runtimeError msg), effs, c')) :
    ∃ cmd text, exit cmd ≠ 0 ∧ msg = "Failed to process '" ++ cmd ++ "'" ∧
      effs = [Effect.writeFile (mktemp c "") text, Effect.popen cmd] := by
  unfold _merge_clips at h
  cases clips with
  | nil => simp at h
  | cons c0 rest =>
    simp only [Bool.false_eq_true, if_false] at h
    split at h
    · rename_i hexit
      simp only [Prod.mk.injEq] at h
      obtain ⟨h1, h2, -⟩ := h
      refine ⟨mergeCommand c c0, manifestText (c0 :: rest), hexit, ?_, h2.symm⟩
      injection h1 with h1'
      injection h1' with h1''
      exact h1''.symm
    · simp at h

/-- C8: when the transcoder exits non-zero on a group, the live
`processGroup` raises `RuntimeError` whose message contains the exact
invoked command line, and the effects performed for that group contain
no directory creation and no move — the failure precedes both. -/
theorem C8_transcoder_failure (path key : String) (g : Group)
    (exit : String → Int) (fs : String → Bool) (c c' : Nat) (msg : String)
    (effs : List Effect)
    (h : processGroup path key g false exit fs c =
      (Except.error (PyError.runtimeError msg), effs, c')) :
    ∃ cmd, Effect.popen cmd ∈ effs ∧ exit cmd ≠ 0 ∧
      msg = "Failed to process '" ++ cmd ++ "'" ∧
      ∀ e ∈ effs, (∀ p, e ≠ Effect.makedirs p) ∧ (∀ s d, e ≠ Effect.move s d) := by
  unfold processGroup at h
  split at h
  · simp at h
  · split at h
    · rename_i e effs0 c0 heq
      simp only [Prod.mk.injEq] at h
      obtain ⟨h1, h2, h3⟩ := h
      injection h1 with h1'
      rw [h1', h2, h3] at heq
      obtain ⟨cmd, text, hx, hm, he⟩ := merge_inner_runtime _ _ _ _ _ _ heq
      refine ⟨cmd, ?_, hx, hm, ?_⟩
      · rw [he]; simp
      · intro e' he'
        rw [he] at he'
        simp only [List.mem_cons, List.not_mem_nil, or_false] at he'
        rcases he' with h' | h' <;> rw [h'] <;> exact ⟨fun p => by simp, fun s d => by simp⟩
    · simp at h

/-- C8 witness: a failing transcoder (exit status 1) on a two-clip
group. -/
theorem C8_transcoder_failure_witness :
    ∃ cmd,
      Effect.popen cmd ∈
        [Effect.writeFile "/tmp/tmp0" "file '/c/GH010013.MP4'\nfile '/c/GH020013.MP4'",
         Effect.popen "ffmpeg -f concat -safe 0 -i /tmp/tmp0 -c:v copy /tmp/tmp1.MP4"] ∧
      (fun (_ : String) => (1 : Int)) cmd ≠ 0 ∧
      "Failed to process 'ffmpeg -f concat -safe 0 -i /tmp/tmp0 -c:v copy /tmp/tmp1.MP4'" =
        "Failed to process '" ++ cmd ++ "'" ∧
      ∀ e ∈
        [Effect.writeFile "/tmp/tmp0" "file '/c/GH010013.MP4'\nfile '/c/GH020013.MP4'",
         Effect.popen "ffmpeg -f concat -safe 0 -i /tmp/tmp0 -c:v copy /tmp/tmp1.MP4"],
        (∀ p, e ≠ Effect.makedirs p) ∧ (∀ s d, e ≠ Effect.move s d) :=
  C8_transcoder_failure "/c" "GH010013"
    ⟨["/c/GH020013.MP4", "/c/GH010013.MP4"], none, none⟩
    (fun _ => 1) (fun _ => false) 0 2 _ _ rfl

/-! ### Structure of the first consecutive run -/

/-- `runsAux` never returns an empty run list. -/
theorem runsAux_ne_nil (l : List Nat) (p : Nat) (acc : List Nat) :
    runsAux p acc l ≠ [] := by
  induction l generalizing p acc with
  | nil => simp [runsAux]
  | cons k t ih =>
    unfold runsAux
    split
    · exact ih k (k :: acc)
    · simp

/-- The first run produced by `runsAux` starts with the accumulator
(reversed), extended by some tail. -/
theorem runsAux_headD (l : List Nat) (p : Nat) (acc : List Nat) :
    ∃ ext, (runsAux p acc l).headD [] = acc.reverse ++ ext := by
  induction l generalizing p acc with
  | nil => exact ⟨[], by simp [runsAux]⟩
  | cons k t ih =>
    unfold runsAux
    split
    · obtain ⟨ext, he⟩ := ih k (k :: acc)
      exact ⟨k :: ext, by simpa using he⟩
    · exact ⟨[], by simp⟩

/-- Appending the successor of the last element keeps a list strictly
consecutive. -/
theorem consec_append_succ :
    ∀ (xs : List Nat) (p : Nat), isConsecRun xs = true →
      xs.getLast? = some p → isConsecRun (xs ++ [p + 1]) = true
  | [], p, _, hl => by simp at hl
  | [a], p, _, hl => by
    simp only [List.getLast?_singleton, Option.some.injEq] at hl
    subst hl
    simp [isConsecRun]
  | a :: b :: t, p, h, hl => by
    simp only [isConsecRun, Bool.and_eq_true, beq_iff_eq] at h
    obtain ⟨hb, hrest⟩ := h
    subst hb
    have hl' : ((a + 1) :: t).getLast? = some p := by
      rwa [List.getLast?_cons_cons] at hl
    have ht := consec_append_succ ((a + 1) :: t) p hrest hl'
    simp only [List.cons_append] at ht ⊢
    simp [isConsecRun, ht]

/-- The first run produced by `runsAux` is strictly consecutive when the
accumulator (a reversed run ending at `p`) is. -/
theorem runsAux_headD_consec (l : List Nat) (p : Nat) (acc : List Nat)
    (hh : acc.head? = some p) (hc : isConsecRun acc.reverse = true) :
    isConsecRun ((runsAux p acc l).headD []) = true := by
  induction l generalizing p acc with
  | nil => simpa [runsAux] using hc
  | cons k t ih =>
    unfold runsAux
    split
    · rename_i hk
      refine ih k (k :: acc) rfl ?_
      rw [List.reverse_cons, hk]
      refine consec_append_succ acc.reverse p hc ?_
      rw [List.getLast?_reverse, hh]
    · simpa using hc

/-- The keys of a dict are unchanged by assignment to a present key and
extended by a fresh key. -/
theorem dictInsert_fst (d : List (Nat × String)) (k : Nat) (v : String) :
    (dictInsert d k v).map Prod.fst =
      if d.any (fun p => p.1 == k) then d.map Prod.fst
      else d.map Prod.fst ++ [k] := by
  unfold dictInsert
  split
  · rw [List.map_map]
    apply List.map_congr_left
    intro p hp
    simp only [Function.comp]
    by_cases hpk : (p.1 == k) = true
    · rw [if_pos hpk]
      exact (beq_iff_eq.mp hpk).symm
    · rw [if_neg hpk]
  · simp

/-- Assignment preserves distinctness of dict keys. -/
theorem dictInsert_fst_nodup (d : List (Nat × String)) (k : Nat) (v : String)
    (h : (d.map Prod.fst).Nodup) : ((dictInsert d k v).map Prod.fst).Nodup := by
  rw [dictInsert_fst]
  split
  · exact h
  · rename_i hany
    rw [List.nodup_append]
    refine ⟨h, List.nodup_singleton _, ?_⟩
    intro a ha hb
    simp only [List.mem_singleton] at hb
    subst hb
    apply hany
    rw [List.any_eq_true]
    obtain ⟨p, hp, he⟩ := List.mem_map.mp ha
    exact ⟨p, hp, by simp [he]⟩

/-- The dict built by `_map_movies` has pairwise distinct keys. -/
theorem mapMovies_fold_nodup :
    ∀ (movies : List String) (acc mapped : List (Nat × String)),
      (acc.map Prod.fst).Nodup →
      List.foldlM (fun d movie =>
        match strToNat? (strDrop 2 (splitext movie).1) with
        | some k => Except.ok (dictInsert d k movie)
        | none => Except.error PyError.valueError) acc movies = Except.ok mapped →
      (mapped.map Prod.fst).Nodup
  | [], acc, mapped, hacc, hf => by
    rw [List.foldlM_nil] at hf
    injection hf with hf'
    rw [← hf']
    exact hacc
  | mv :: rest, acc, mapped, hacc, hf => by
    rw [List.foldlM_cons] at hf
    split at hf
    · rename_i k hk
      exact mapMovies_fold_nodup rest (dictInsert acc k mv) mapped
        (dictInsert_fst_nodup acc k mv hacc) hf
    · simp [Bind.bind, Except.bind] at hf

/-- Every element of the first run produced by `runsAux` comes from the
accumulator or the remaining input. -/
theorem runsAux_head_subset :
    ∀ (l : List Nat) (p : Nat) (acc : List Nat) (x : Nat),
      x ∈ (runsAux p acc l).headD [] → x ∈ acc ∨ x ∈ l
  | [], _, acc, x, hx => by
    simp only [runsAux, List.headD_cons] at hx
    exact Or.inl (List.mem_reverse.mp hx)
  | k :: t, p, acc, x, hx => by
    unfold runsAux at hx
    split at hx
    · rcases runsAux_head_subset t k (k :: acc) x hx with hm | hm
      · rcases List.mem_cons.mp hm with he | hm'
        · exact Or.inr (by rw [he]; exact List.mem_cons_self _ _)
        · exact Or.inl hm'
      · exact Or.inr (List.mem_cons_of_mem _ hm)
    · simp only [List.headD_cons] at hx
      exact Or.inl (List.mem_reverse.mp hx)

/-- Over a strictly ascending input, the first run produced by `runsAux`
is maximal: the successor of its last element occurs neither in the
accumulator nor in the remaining input. -/
theorem runsAux_first_maximal :
    ∀ (l : List Nat) (p : Nat) (acc : List Nat),
      acc.head? = some p →
      List.Pairwise (fun a b => a < b) (p :: l) →
      (∀ x ∈ acc, x ≤ p) →
      ∃ q, ((runsAux p acc l).headD []).getLast? = some q ∧ p ≤ q ∧
        (q + 1) ∉ acc ∧ (q + 1) ∉ l
  | [], p, acc, hh, _, hacc => by
    refine ⟨p, ?_, Nat.le_refl p, ?_, by simp⟩
    · simp [runsAux, List.getLast?_reverse, hh]
    · intro hmem
      have := hacc _ hmem
      omega
  | k :: t, p, acc, hh, hpw, hacc => by
    unfold runsAux
    split
    · rename_i hk
      have hpw' : List.Pairwise (fun a b => a < b) (k :: t) :=
        (List.pairwise_cons.mp hpw).2
      have hacc' : ∀ x ∈ k :: acc, x ≤ k := by
        intro x hx
        rcases List.mem_cons.mp hx with he | hm
        · exact Nat.le_of_eq he
        · have := hacc x hm
          omega
      obtain ⟨q, hq, hkq, hq1acc, hq1t⟩ :=
        runsAux_first_maximal t k (k :: acc) rfl hpw' hacc'
      refine ⟨q, hq, by omega, ?_, ?_⟩
      · intro hmem
        exact hq1acc (List.mem_cons_of_mem _ hmem)
      · intro hmem
        rcases List.mem_cons.mp hmem with he | hm
        · omega
        · exact hq1t hm
    · rename_i hk
      have hpk : p < k :=
        (List.pairwise_cons.mp hpw).1 k (List.mem_cons_self _ _)
      refine ⟨p, ?_, Nat.le_refl p, ?_, ?_⟩
      · simp [List.getLast?_reverse, hh]
      · intro hmem
        have := hacc _ hmem
        omega
      · intro hmem
        rcases List.mem_cons.mp hmem with he | hm
        · exact hk he.symm
        · have hkt := (List.pairwise_cons.mp (List.pairwise_cons.mp hpw).2).1 _ hm
          have hknp : ¬ (k = p + 1) := hk
          omega

/-- C1 amended: for every parsed file set, the extractor returns the
maximal consecutive run that contains the smallest sequence key — the
first run in ascending key order, whatever its length: the run it
returns is nonempty and strictly consecutive, all its elements are
sequence keys, its first element is a key that is a lower bound of all
keys (the smallest key), and it is maximal — the successor of its last
element is not a key (and no key precedes its minimal first element). -/
theorem C1_amended (movies : List String) (mapped : List (Nat × String))
    (h : _map_movies movies = Except.ok mapped) (hne : mapped ≠ []) :
    ∃ r : List Nat,
      _sort_sequential_movies movies =
        Except.ok (r.map (fun k => lookupD mapped k)) ∧
      r ≠ [] ∧ isConsecRun r = true ∧
      (∀ x ∈ r, x ∈ mapped.map Prod.fst) ∧
      r.headD 0 ∈ mapped.map Prod.fst ∧
      (∀ k ∈ mapped.map Prod.fst, r.headD 0 ≤ k) ∧
      ∃ q, r.getLast? = some q ∧ (q + 1) ∉ mapped.map Prod.fst := by
  unfold _sort_sequential_movies
  rw [h]
  have hkperm := List.perm_insertionSort (fun a b : Nat => a ≤ b) (mapped.map Prod.fst)
  have hsorted := List.sorted_insertionSort (fun a b : Nat => a ≤ b) (mapped.map Prod.fst)
  have hnodup0 : (mapped.map Prod.fst).Nodup := by
    apply mapMovies_fold_nodup movies [] mapped (by simp)
    unfold _map_movies at h
    exact h
  have hkne : sortNat (mapped.map Prod.fst) ≠ [] := by
    intro hnil
    simp only [sortNat] at hnil
    rw [hnil] at hkperm
    exact hne (List.map_eq_nil_iff.mp hkperm.symm.eq_nil)
  have hknodup : (List.insertionSort (fun a b : Nat => a ≤ b)
      (mapped.map Prod.fst)).Nodup := hkperm.nodup_iff.mpr hnodup0
  cases hk : sortNat (mapped.map Prod.fst) with
  | nil => exact absurd hk hkne
  | cons k0 krest =>
    have hk' := hk
    simp only [sortNat] at hk'
    rw [hk'] at hsorted hknodup
    -- membership transfer between the sorted key list and the dict keys
    have hmem_keys : ∀ x, x ∈ k0 :: krest ↔ x ∈ mapped.map Prod.fst := by
      intro x
      rw [← hk']
      exact List.mem_insertionSort (fun a b : Nat => a ≤ b)
    have hlt : List.Pairwise (fun a b : Nat => a < b) (k0 :: krest) :=
      List.Sorted.lt_of_le hsorted hknodup
    have hrne := runsAux_ne_nil krest k0 [k0]
    obtain ⟨ext, hhead⟩ := runsAux_headD krest k0 [k0]
    have hcons := runsAux_headD_consec krest k0 [k0] rfl rfl
    obtain ⟨q, hq, hk0q, hq1a, hq1k⟩ :=
      runsAux_first_maximal krest k0 [k0] rfl hlt (by simp)
    cases hr : runsAux k0 [k0] krest with
    | nil => exact absurd hr hrne
    | cons r0 rs =>
      rw [hr] at hhead hcons hq
      simp only [List.headD_cons] at hhead hcons hq
      have hr0 : r0 = k0 :: ext := by simpa using hhead
      refine ⟨r0, ?_, ?_, hcons, ?_, ?_, ?_, q, hq, ?_⟩
      · simp [groupConsecRuns, hk, hr]
      · rw [hr0]; simp
      · intro x hx
        have hx' : x ∈ (runsAux k0 [k0] krest).headD [] := by
          rw [hr]
          simpa using hx
        rcases runsAux_head_subset krest k0 [k0] x hx' with hm | hm
        · simp only [List.mem_singleton] at hm
          exact (hmem_keys x).mp (by rw [hm]; exact List.mem_cons_self _ _)
        · exact (hmem_keys x).mp (List.mem_cons_of_mem _ hm)
      · rw [hr0]
        simp only [List.headD_cons]
        exact (hmem_keys k0).mp (List.mem_cons_self _ _)
      · intro k hkmem
        have hkmem' : k ∈ k0 :: krest := (hmem_keys k).mpr hkmem
        rw [hr0]
        simp only [List.headD_cons]
        rcases List.mem_cons.mp hkmem' with hke | hkt
        · exact Nat.le_of_eq hke.symm
        · exact List.rel_of_sorted_cons hsorted k hkt
      · intro hmem
        have hmem' : q + 1 ∈ k0 :: krest := (hmem_keys (q + 1)).mpr hmem
        rcases List.mem_cons.mp hmem' with he | hm
        · exact hq1a (by rw [he]; exact List.mem_cons_self _ _)
        · exact hq1k hm

/-- C1 amended, witness: a single movie, key 10013. -/
theorem C1_amended_witness :
    ∃ r : List Nat,
      _sort_sequential_movies ["GH010013.MP4"] =
        Except.ok (r.map (fun k => lookupD [(10013, "GH010013.MP4")] k)) ∧
      r ≠ [] ∧ isConsecRun r = true ∧
      (∀ x ∈ r, x ∈ ([(10013, "GH010013.MP4")] : List (Nat × String)).map Prod.fst) ∧
      r.headD 0 ∈ ([(10013, "GH010013.MP4")] : List (Nat × String)).map Prod.fst ∧
      (∀ k ∈ ([(10013, "GH010013.MP4")] : List (Nat × String)).map Prod.fst,
        r.headD 0 ≤ k) ∧
      ∃ q, r.getLast? = some q ∧
        (q + 1) ∉ ([(10013, "GH010013.MP4")] : List (Nat × String)).map Prod.fst :=
  C1_amended ["GH010013.MP4"] [(10013, "GH010013.MP4")] rfl (by decide)

/-! ### Every clip of every group is a scanned, valid-extension name -/

/-- A looked-up value of a present key is one of the dict's values. -/
theorem lookupD_mem :
    ∀ (m : List (Nat × String)) (t : Nat), t ∈ m.map Prod.fst →
      ∃ q ∈ m, lookupD m t = q.2
  | [], t, h => by simp at h
  | p :: rest, t, h => by
    cases hbe : (p.1 == t) with
    | true =>
      refine ⟨p, List.mem_cons_self _ _, ?_⟩
      unfold lookupD
      rw [@List.find?_cons_of_pos _ (fun q : Nat × String => q.1 == t) p rest hbe]
    | false =>
      have hbe' : ¬ ((fun q : Nat × String => q.1 == t) p = true) := by
        simp only [hbe]
        exact Bool.false_ne_true
      have ht : t ∈ rest.map Prod.fst := by
        simp only [List.map_cons, List.mem_cons] at h
        rcases h with he | hr
        · rw [he] at hbe; simp at hbe
        · exact hr
      obtain ⟨q, hq, he⟩ := lookupD_mem rest t ht
      refine ⟨q, List.mem_cons_of_mem _ hq, ?_⟩
      unfold lookupD
      rw [@List.find?_cons_of_neg _ (fun q : Nat × String => q.1 == t) p rest hbe']
      simpa only [lookupD] using he

/-- A dict entry after an assignment is an old entry or carries the
assigned value. -/
theorem dictInsert_snd_mem (d : List (Nat × String)) (k : Nat) (v : String)
    (q : Nat × String) (hq : q ∈ dictInsert d k v) : q ∈ d ∨ q.2 = v := by
  unfold dictInsert at hq
  split at hq
  · obtain ⟨p, hp, he⟩ := List.mem_map.mp hq
    by_cases hpk : (p.1 == k) = true
    · rw [if_pos hpk] at he
      right; rw [← he]
    · rw [if_neg hpk] at he
      left; rw [← he]; exact hp
  · rcases List.mem_append.mp hq with h1 | h2
    · exact Or.inl h1
    · right
      simp only [List.mem_singleton] at h2
      rw [h2]

/-- Every value of the mtime dict is one of the scanned movies. -/
theorem mtimeDict_snd_mem (dir : List Entry) :
    ∀ (movies : List String) (acc : List (Nat × String)) (q : Nat × String),
      q ∈ movies.foldl (fun d mv => dictInsert d (statMtime dir mv) mv) acc →
      q ∈ acc ∨ q.2 ∈ movies
  | [], _, q, h => Or.inl h
  | mv :: rest, acc, q, h => by
    rcases mtimeDict_snd_mem dir rest (dictInsert acc (statMtime dir mv) mv) q h
      with h1 | h2
    · rcases dictInsert_snd_mem _ _ _ _ h1 with ha | hv
      · exact Or.inl ha
      · exact Or.inr (by rw [hv]; exact List.mem_cons_self _ _)
    · exact Or.inr (List.mem_cons_of_mem _ h2)

/-- The mtime order contains only scanned movies. -/
theorem sort_by_mtime_subset (dir : List Entry) (movies : List String)
    (x : String) (hx : x ∈ _sort_by_mtime dir movies) : x ∈ movies := by
  unfold _sort_by_mtime at hx
  obtain ⟨t, ht, he⟩ := List.mem_map.mp hx
  have htk : t ∈ (mtimeDict dir movies).map Prod.fst := by
    simp only [sortNat] at ht
    exact (List.mem_insertionSort _).mp ht
  obtain ⟨q, hq, hv⟩ := lookupD_mem _ t htk
  rcases mtimeDict_snd_mem dir movies [] q hq with h0 | hm
  · simp at h0
  · rw [← he, hv]; exact hm

/-- A Python slice holds only elements of the sliced list. -/
theorem pySlice_subset {α : Type} (l : List α) (a b : Int) (x : α)
    (hx : x ∈ pySlice l a b) : x ∈ l :=
  List.mem_of_mem_take (List.mem_of_mem_drop hx)

/-- Every clip of every group built by `buildGroups` is a path joined
onto an element of the mtime order. -/
theorem buildGroups_clips (path : String) (byTime : List String) :
    ∀ (runs : List (List Nat)) (acc m : Mapping),
      (∀ k g, (k, g) ∈ acc → ∀ cl ∈ g.clips, ∃ n, n ∈ byTime ∧ cl = joinPath path n) →
      buildGroups path byTime runs acc = Except.ok m →
      ∀ k g, (k, g) ∈ m → ∀ cl ∈ g.clips, ∃ n, n ∈ byTime ∧ cl = joinPath path n
  | [], acc, m, hacc, hb, k, g, hm, cl, hcl => by
    unfold buildGroups at hb
    injection hb with hb'
    exact hacc k g (hb' ▸ hm) cl hcl
  | run :: rest, acc, m, hacc, hb, k, g, hm, cl, hcl => by
    unfold buildGroups at hb
    split at hb
    · simp at hb
    · rename_i g0 gtl heq
      refine buildGroups_clips path byTime rest _ m ?_ hb k g hm cl hcl
      intro k' g' hk' cl' hcl'
      split at hk'
      · exact hacc k' g' hk' cl' hcl'
      · rcases List.mem_append.mp hk' with h1 | h2
        · exact hacc k' g' h1 cl' hcl'
        · simp only [List.mem_singleton, Prod.mk.injEq] at h2
          obtain ⟨-, hg2⟩ := h2
          rw [hg2] at hcl'
          simp only at hcl'
          obtain ⟨n, hn, hne⟩ := List.mem_map.mp hcl'
          refine ⟨n, ?_, hne.symm⟩
          exact pySlice_subset byTime _ _ n (heq ▸ hn)

/-- C3 amended: every clip in every group of the returned mapping is the
path joined onto a scanned directory name whose extension passed the
scan's (sole) validity check — so an entry skipped by the extension
check appears in no group.  (A valid-extension entry with an unparsable
base name is not skipped but raises `ValueError`, and non-regular
entries are not filtered: see the counterexample.) -/
theorem C3_amended (path : String) (dir : List Entry) (m : Mapping)
    (h : _map_chapters path dir = Except.ok m) :
    ∀ k g, (k, g) ∈ m → ∀ cl ∈ g.clips,
      ∃ n, n ∈ scanMovies dir ∧ isValidExt n = true ∧ cl = joinPath path n := by
  unfold _map_chapters at h
  split at h
  · simp at h
  · split at h
    · injection h with h'
      intro k g hm
      rw [← h'] at hm
      simp at hm
    · intro k g hm cl hcl
      obtain ⟨n, hn, he⟩ :=
        buildGroups_clips path (_sort_by_mtime dir (scanMovies dir)) _ [] m
          (by simp) h k g hm cl hcl
      have hnm : n ∈ scanMovies dir :=
        sort_by_mtime_subset dir (scanMovies dir) n hn
      refine ⟨n, hnm, ?_, he⟩
      unfold scanMovies at hnm
      exact (List.mem_filter.mp hnm).2

/-- C3 amended, witness: the clip `/p/GH010013.MP4` of the single group
of a two-file directory is a scanned, valid-extension name. -/
theorem C3_amended_witness :
    ∃ n, n ∈ scanMovies [⟨"GH010013.MP4", 0, true⟩, ⟨"GH020013.MP4", 1, true⟩] ∧
      isValidExt n = true ∧ "/p/GH010013.MP4" = joinPath "/p" n :=
  C3_amended "/p" [⟨"GH010013.MP4", 0, true⟩, ⟨"GH020013.MP4", 1, true⟩]
    [("GH010013",
      { clips := ["/p/GH010013.MP4", "/p/GH020013.MP4"],
        command := none, output := none })]
    rfl "GH010013"
    { clips := ["/p/GH010013.MP4", "/p/GH020013.MP4"],
      command := none, output := none }
    (by simp) "/p/GH010013.MP4" (by simp)

/-! ### The mtime order under distinct mtimes -/

/-- Assignment with a fresh key appends. -/
theorem dictInsert_fresh (d : List (Nat × String)) (k : Nat) (v : String)
    (h : ∀ p ∈ d, p.1 ≠ k) : dictInsert d k v = d ++ [(k, v)] := by
  have hna : ¬ (d.any (fun p => p.1 == k) = true) := by
    rw [List.any_eq_true]
    rintro ⟨p, hp, hpe⟩
    exact h p hp (by simpa using hpe)
  unfold dictInsert
  rw [if_neg hna]

/-- With pairwise distinct mtimes the dict is just the movie list paired
with its mtimes, in scan order. -/
theorem mtimeDict_eq_aux (dir : List Entry) :
    ∀ (movies : List String) (acc : List (Nat × String)),
      (∀ mv ∈ movies, ∀ p ∈ acc, p.1 ≠ statMtime dir mv) →
      movies.Pairwise (fun a b => statMtime dir a ≠ statMtime dir b) →
      movies.foldl (fun d mv => dictInsert d (statMtime dir mv) mv) acc =
        acc ++ movies.map (fun mv => (statMtime dir mv, mv))
  | [], acc, _, _ => by simp
  | mv :: rest, acc, hfresh, hpw => by
    simp only [List.foldl_cons, List.map_cons]
    rw [dictInsert_fresh _ _ _ (fun p hp => hfresh mv (List.mem_cons_self _ _) p hp)]
    rw [mtimeDict_eq_aux dir rest (acc ++ [(statMtime dir mv, mv)])
          ?fresh ((List.pairwise_cons.mp hpw).2)]
    · simp
    case fresh =>
      intro mv' hmv' p hp
      rcases List.mem_append.mp hp with h1 | h2
      · exact hfresh mv' (List.mem_cons_of_mem _ hmv') p h1
      · simp only [List.mem_singleton] at h2
        rw [h2]
        exact (List.pairwise_cons.mp hpw).1 mv' hmv'

/-- Looking an mtime up in the paired dict returns its movie, when
mtimes are pairwise distinct. -/
theorem lookup_mapped (dir : List Entry) :
    ∀ (movies : List String),
      movies.Pairwise (fun a b => statMtime dir a ≠ statMtime dir b) →
      ∀ mv ∈ movies,
        lookupD (movies.map (fun x => (statMtime dir x, x))) (statMtime dir mv) = mv
  | [], _, mv, h => by simp at h
  | a :: rest, hpw, mv, h => by
    rcases List.mem_cons.mp h with he | hr
    · subst he
      unfold lookupD
      simp only [List.map_cons]
      rw [@List.find?_cons_of_pos _
            (fun q : Nat × String => q.1 == statMtime dir mv)
            (statMtime dir mv, mv) _ (by simp)]
    · have hne : statMtime dir a ≠ statMtime dir mv :=
        (List.pairwise_cons.mp hpw).1 mv hr
      unfold lookupD
      simp only [List.map_cons]
      rw [@List.find?_cons_of_neg _
            (fun q : Nat × String => q.1 == statMtime dir mv)
            (statMtime dir a, a) _ (by simpa using hne)]
      have := lookup_mapped dir rest (List.pairwise_cons.mp hpw).2 mv hr
      simpa only [lookupD] using this

/-- Every key of the paired dict looks up to a movie with exactly that
mtime. -/
theorem lookup_stat (dir : List Entry) (movies : List String)
    (hpw : movies.Pairwise (fun a b => statMtime dir a ≠ statMtime dir b))
    (t : Nat)
    (ht : t ∈ (movies.map (fun x => (statMtime dir x, x))).map Prod.fst) :
    statMtime dir
      (lookupD (movies.map (fun x => (statMtime dir x, x))) t) = t := by
  rw [List.map_map] at ht
  obtain ⟨mv, hmv, he⟩ := List.mem_map.mp ht
  simp only [Function.comp] at he
  rw [← he]
  rw [lookup_mapped dir movies hpw mv hmv]

/-- C4 amended: when the scanned files have pairwise distinct
modification times, the list built by `_sort_by_mtime` is a permutation
of all of them, ordered by modification time ascending.  (With a shared
mtime a file is dropped: see the counterexample.) -/
theorem C4_amended (dir : List Entry) (movies : List String)
    (hnd : movies.Nodup)
    (hinj : ∀ a ∈ movies, ∀ b ∈ movies,
      statMtime dir a = statMtime dir b → a = b) :
    (_sort_by_mtime dir movies).Perm movies ∧
    (_sort_by_mtime dir movies).Pairwise
      (fun a b => statMtime dir a ≤ statMtime dir b) := by
  have hpw : movies.Pairwise (fun a b => statMtime dir a ≠ statMtime dir b) :=
    List.Pairwise.imp_of_mem
      (fun ha hb hne heq => hne (hinj _ ha _ hb heq)) hnd
  have hdict : mtimeDict dir movies =
      movies.map (fun mv => (statMtime dir mv, mv)) := by
    unfold mtimeDict
    rw [mtimeDict_eq_aux dir movies [] (by simp) hpw]
    simp
  constructor
  · unfold _sort_by_mtime
    rw [hdict]
    have hp1 : (sortNat ((movies.map (fun mv => (statMtime dir mv, mv))).map
        Prod.fst)).Perm
        ((movies.map (fun mv => (statMtime dir mv, mv))).map Prod.fst) := by
      simp only [sortNat]
      exact List.perm_insertionSort _ _
    have hp2 := hp1.map
      (fun t => lookupD (movies.map (fun mv => (statMtime dir mv, mv))) t)
    have hmm : ((movies.map (fun mv => (statMtime dir mv, mv))).map
        Prod.fst).map
        (fun t => lookupD (movies.map (fun mv => (statMtime dir mv, mv))) t) =
        movies := by
      rw [List.map_map, List.map_map]
      refine Eq.trans (List.map_congr_left ?_) (List.map_id movies)
      intro mv hmv
      simp only [Function.comp, id]
      exact lookup_mapped dir movies hpw mv hmv
    rw [hmm] at hp2
    exact hp2
  · unfold _sort_by_mtime
    rw [hdict]
    have hsort : List.Sorted (fun a b : Nat => a ≤ b)
        (sortNat ((movies.map (fun mv => (statMtime dir mv, mv))).map
          Prod.fst)) := by
      simp only [sortNat]
      exact List.sorted_insertionSort _ _
    rw [List.pairwise_map]
    refine List.Pairwise.imp_of_mem ?_ hsort
    intro a b ha hb hab
    have ha' : a ∈ (movies.map (fun mv => (statMtime dir mv, mv))).map
        Prod.fst := by
      simp only [sortNat] at ha
      exact (List.mem_insertionSort _).mp ha
    have hb' : b ∈ (movies.map (fun mv => (statMtime dir mv, mv))).map
        Prod.fst := by
      simp only [sortNat] at hb
      exact (List.mem_insertionSort _).mp hb
    rw [lookup_stat dir movies hpw a ha', lookup_stat dir movies hpw b hb']
    exact hab

/-- C4 amended, witness: two files with distinct mtimes, scanned in
reverse mtime order, come back complete and mtime-sorted. -/
theorem C4_amended_witness :
    (_sort_by_mtime
        [⟨"GH010011.MP4", 7, true⟩, ⟨"GH010010.MP4", 3, true⟩]
        ["GH010011.MP4", "GH010010.MP4"]).Perm
      ["GH010011.MP4", "GH010010.MP4"] ∧
    (_sort_by_mtime
        [⟨"GH010011.MP4", 7, true⟩, ⟨"GH010010.MP4", 3, true⟩]
        ["GH010011.MP4", "GH010010.MP4"]).Pairwise
      (fun a b =>
        statMtime [⟨"GH010011.MP4", 7, true⟩, ⟨"GH010010.MP4", 3, true⟩] a ≤
        statMtime [⟨"GH010011.MP4", 7, true⟩, ⟨"GH010010.MP4", 3, true⟩] b) :=
  C4_amended [⟨"GH010011.MP4", 7, true⟩, ⟨"GH010010.MP4", 3, true⟩]
    ["GH010011.MP4", "GH010010.MP4"] (by decide) (by decide)

end GP
